import Mathlib

/-!
A shallow embedding of the EPUB translator core (`translator.py`) and proofs
of the specification's claims about it.

External collaborators (the `tiktoken` encoder, the NLTK sentence tokenizer,
the Ollama chat backend) are modelled as explicit function parameters; the
repository's own code (`clean_text`, `split_text_by_tokens`, `translate_text`,
`count_paragraphs_in_book`, `translate_book`) is translated line by line.
Side effects (backend calls, logging, `time.sleep`, progress callbacks) are
recorded in an explicit event trace.
-/

namespace EpubTranslator

/-! ### Text normalizer (`clean_text`, `str.strip`) -/

/-- The whitespace characters recognised by Python's `\s` regex class and
`str.strip` on `str` values (ASCII whitespace, file separators, and the
Unicode space separators). -/
def pySpace : List Char :=
  [' ', '\t', '\n', '\x0b', '\x0c', '\r',
   '\x1c', '\x1d', '\x1e', '\x1f', '\x85', '\xa0',
   '\u1680', '\u2000', '\u2001', '\u2002', '\u2003', '\u2004', '\u2005',
   '\u2006', '\u2007', '\u2008', '\u2009', '\u200a',
   '\u2028', '\u2029', '\u202f', '\u205f', '\u3000']

def isSpaceCh (c : Char) : Bool := pySpace.contains c

/-- `text.replace("\n", " ").replace("\r", " ")`, on one character. -/
def fixNewline (c : Char) : Char := if c = '\n' ∨ c = '\r' then ' ' else c

/-- `text.replace("’", "'").replace("‘", "'")`, on one character. -/
def fixQuote (c : Char) : Char := if c = '’' ∨ c = '‘' then '\x27' else c

/-- `re.sub(r"\s+", " ", text)`: every maximal nonempty run of whitespace
characters is replaced by a single space. -/
def collapseWS : List Char → List Char
  | [] => []
  | [c] => if isSpaceCh c then [' '] else [c]
  | c :: d :: rest =>
    if isSpaceCh c then
      if isSpaceCh d then collapseWS (d :: rest)
      else ' ' :: collapseWS (d :: rest)
    else c :: collapseWS (d :: rest)

/-- `str.strip()`: drop leading and trailing whitespace characters. -/
def stripList (l : List Char) : List Char :=
  ((l.dropWhile isSpaceCh).reverse.dropWhile isSpaceCh).reverse

/-- Python `text.strip()`. -/
def sstrip (s : String) : String := ⟨stripList s.data⟩

/-- The two single-character `replace` passes of `clean_text`, composed. -/
def fixChar (c : Char) : Char := fixQuote (fixNewline c)

/-- `clean_text` from `translator.py`: newline/carriage-return to space,
curly single quotes to an apostrophe, whitespace runs collapsed to a single
space, then stripped. -/
def clean_text (s : String) : String :=
  ⟨stripList (collapseWS (s.data.map fixChar))⟩

/-! ### Token estimator (`count_tokens`) -/

/-- `count_tokens` from `translator.py`: `len(ENCODER.encode(text))`, with the
external `tiktoken` encoder `ENCODER.encode` passed in as `encode`. -/
def count_tokens (encode : String → List Nat) (text : String) : Nat :=
  (encode text).length

/-! ### Chunker (`split_text_by_tokens`) -/

/-- Python `" ".join(l)`. -/
def joinSpace : List String → String
  | [] => ""
  | [s] => s
  | s :: t :: rest => s ++ " " ++ joinSpace (t :: rest)

/-- The sentence loop of `split_text_by_tokens`: `cur` is `current_chunk`
(the list of cleaned sentences accumulated so far), `curLen` is
`current_length`.  Emits `" ".join(current_chunk)` on flush and at the end. -/
def split_go (encode : String → List Nat) (maxTokens : Nat) :
    List String → List String → Nat → List String
  | [], cur, _ => if cur = [] then [] else [joinSpace cur]
  | s :: rest, cur, curLen =>
    let sc := clean_text s
    let sl := count_tokens encode sc
    if curLen + sl > maxTokens then
      (if cur = [] then [] else [joinSpace cur]) ++ split_go encode maxTokens rest [sc] sl
    else
      split_go encode maxTokens rest (cur ++ [sc]) (curLen + sl)

/-- `split_text_by_tokens` from `translator.py`, with the external NLTK
`sent_tokenize` passed in as `sentTok`. -/
def split_text_by_tokens (encode : String → List Nat) (sentTok : String → List String)
    (text : String) (maxTokens : Nat) : List String :=
  split_go encode maxTokens (sentTok text) [] 0

/-- The same loop as `split_go`, but keeping each emitted chunk as the list of
cleaned sentences it is joined from (the chunk's constituents together with
their tracked token budget). -/
def groups_go (encode : String → List Nat) (maxTokens : Nat) :
    List String → List String → Nat → List (List String)
  | [], cur, _ => if cur = [] then [] else [cur]
  | s :: rest, cur, curLen =>
    let sc := clean_text s
    let sl := count_tokens encode sc
    if curLen + sl > maxTokens then
      (if cur = [] then [] else [cur]) ++ groups_go encode maxTokens rest [sc] sl
    else
      groups_go encode maxTokens rest (cur ++ [sc]) (curLen + sl)

/-- The emitted chunks of `split_text_by_tokens`, each as its list of cleaned
sentences. -/
def chunkGroups (encode : String → List Nat) (sentTok : String → List String)
    (text : String) (maxTokens : Nat) : List (List String) :=
  groups_go encode maxTokens (sentTok text) [] 0

/-! ### Prompt template (`load_prompt_template`, Jinja2 rendering) -/

/-- One piece of a parsed Jinja2 template: literal text or a `{{ name }}`
substitution point. -/
inductive TItem where
  | lit (s : String)
  | var (n : String)
deriving DecidableEq, Repr

abbrev Template := List TItem

/-- Jinja2's default environment renders an undefined variable as the empty
string (the default `Undefined` prints as `""` and raises no error). -/
def renderTemplate (t : Template) (env : String → Option String) : String :=
  String.join (t.map (fun it => match it with
    | TItem.lit s => s
    | TItem.var n => (env n).getD ""))

/-- The substitution environment `translate_text` renders with:
`language`, `text`, `genre`, `title`, `author`. -/
def mkEnv (language textV genre title author : String) : String → Option String :=
  fun n =>
    if n = "language" then some language
    else if n = "text" then some textV
    else if n = "genre" then some genre
    else if n = "title" then some title
    else if n = "author" then some author
    else none

/-- `load_prompt_template` from `translator.py`: read the file and construct a
`Template`.  The file content (already parsed) is `none` when the file is
unreadable; no validation of substitution points is performed. -/
def load_prompt_template (contents : Option Template) : Except String Template :=
  match contents with
  | none => Except.error "template file unreadable"
  | some t => Except.ok t

/-! ### Translation backend and observable events -/

/-- One backend (`ollama.chat`) outcome: a well-formed response carrying
`message.content`, a response failing the `"message" in response and
"content" in response["message"]` check, or a raised exception. -/
inductive BackendResp where
  | ok (content : String)
  | malformed
  | err
deriving DecidableEq, Repr

/-- Observable side effects of the pipeline, in order of occurrence. -/
inductive Event where
  | call (prompt : String)
  | logAttemptFailure
  | sleepDelay (d : ℚ)
  | logChunkSkip
  | progress (current total : Nat)
deriving DecidableEq, Repr

/-- The retry loop of `translate_text` (`for attempt in range(max_retries)`
with a `for ... else` that is handled by the caller): `k` is the index of the
next backend call, the `Nat` argument is the number of attempts remaining.
Returns the chunk's translation (if any attempt succeeded), the next call
index, and the emitted events. -/
def attemptChunk (backend : Nat → BackendResp) (prompt : String) (delay : ℚ) :
    Nat → Nat → Option String × Nat × List Event
  | k, 0 => (none, k, [])
  | k, n + 1 =>
    match backend k with
    | BackendResp.ok s => (some (sstrip s), k + 1, [Event.call prompt])
    | BackendResp.malformed =>
      let r := attemptChunk backend prompt delay (k + 1) n
      (r.1, r.2.1, Event.call prompt :: r.2.2)
    | BackendResp.err =>
      let r := attemptChunk backend prompt delay (k + 1) n
      (r.1, r.2.1,
        Event.call prompt :: Event.logAttemptFailure :: Event.sleepDelay delay :: r.2.2)

/-- The chunk loop of `translate_text`: render the prompt, run the retry loop,
collect successful translations in order, log a skip when a chunk's attempts
are exhausted. -/
def processChunks (backend : Nat → BackendResp) (tmpl : Template)
    (language genre title author : String) (maxRetries : Nat) (delay : ℚ) :
    List String → Nat → List String × Nat × List Event
  | [], k => ([], k, [])
  | c :: rest, k =>
    let c' := sstrip c
    if c' = "" then processChunks backend tmpl language genre title author maxRetries delay rest k
    else
      let prompt := renderTemplate tmpl (mkEnv language c' genre title author)
      let a := attemptChunk backend prompt delay k maxRetries
      let tail := processChunks backend tmpl language genre title author maxRetries delay rest a.2.1
      match a.1 with
      | some t => (t :: tail.1, tail.2.1, a.2.2 ++ tail.2.2)
      | none => (tail.1, tail.2.1, a.2.2 ++ [Event.logChunkSkip] ++ tail.2.2)

/-- `translate_text` from `translator.py`: strip the text, return `""` when
empty, otherwise chunk at `token_limit // 2` and translate chunk by chunk,
joining the successful chunk translations with single spaces. -/
def translate_text (backend : Nat → BackendResp) (encode : String → List Nat)
    (sentTok : String → List String) (text : String)
    (language : String) (tokenLimit : Nat) (tmpl : Template)
    (genre title author : String) (maxRetries : Nat) (delay : ℚ) (k : Nat) :
    String × Nat × List Event :=
  let text := sstrip text
  if text = "" then ("", k, [])
  else
    let chunks := split_text_by_tokens encode sentTok text (tokenLimit / 2)
    let r := processChunks backend tmpl language genre title author maxRetries delay chunks k
    (joinSpace r.1, r.2.1, r.2.2)

/-! ### Document walker (`count_paragraphs_in_book`, `translate_book`) -/

/-- An EPUB as the walker sees it: the document items, each as its ordered
list of `<p>` paragraph texts (`p_tag.get_text(strip=True)` applied on
access), and the `DC` title/creator metadata entries. -/
structure Book where
  parts : List (List String)
  title : Option String
  author : Option String

/-- `count_paragraphs_in_book` from `translator.py`: the total number of `<p>`
paragraphs across all document items. -/
def count_paragraphs_in_book (book : Book) : Nat :=
  (book.parts.map List.length).sum

/-- The body of `translate_book`'s paragraph loop for one `<p>` tag: clean the
text; when nonempty, translate and replace the content (bilingual composition
when requested); when empty, leave the tag untouched.  Returns the tag's new
content, the next backend call index, and the emitted events. -/
def processUnit (backend : Nat → BackendResp) (encode : String → List Nat)
    (sentTok : String → List String) (language : String) (tokenLimit : Nat)
    (tmpl : Template) (genre : String) (bilingual : Bool)
    (finalTitle finalAuthor : String) (u : String) (k : Nat) :
    String × Nat × List Event :=
  let originalText := sstrip u
  let cleanParagraph := clean_text originalText
  if cleanParagraph = "" then (u, k, [])
  else
    let r := translate_text backend encode sentTok cleanParagraph language tokenLimit
      tmpl genre finalTitle finalAuthor 3 2 k
    let newContent :=
      if bilingual then
        "ORIGINAL: " ++ cleanParagraph ++ "<br/><br/>" ++
          "<i>TRANSLATION: " ++ r.1 ++ "</i>"
      else r.1
    (newContent, r.2.1, r.2.2)

/-- The inner paragraph loop of `translate_book`: process each `<p>` in order,
increment `current_count` for every paragraph (translated or skipped), and
invoke the progress callback when one was supplied. -/
def walkUnits (backend : Nat → BackendResp) (encode : String → List Nat)
    (sentTok : String → List String) (language : String) (tokenLimit : Nat)
    (tmpl : Template) (genre : String) (bilingual : Bool)
    (finalTitle finalAuthor : String) (hasCallback : Bool) (total : Nat) :
    List String → Nat → Nat → List String × Nat × Nat × List Event
  | [], cnt, k => ([], cnt, k, [])
  | u :: rest, cnt, k =>
    let r := processUnit backend encode sentTok language tokenLimit tmpl genre bilingual
      finalTitle finalAuthor u k
    let cnt' := cnt + 1
    let pev : List Event := if hasCallback then [Event.progress cnt' total] else []
    let t := walkUnits backend encode sentTok language tokenLimit tmpl genre bilingual
      finalTitle finalAuthor hasCallback total rest cnt' r.2.1
    (r.1 :: t.1, t.2.1, t.2.2.1, r.2.2 ++ pev ++ t.2.2.2)

/-- The outer item loop of `translate_book`, over the document items. -/
def walkParts (backend : Nat → BackendResp) (encode : String → List Nat)
    (sentTok : String → List String) (language : String) (tokenLimit : Nat)
    (tmpl : Template) (genre : String) (bilingual : Bool)
    (finalTitle finalAuthor : String) (hasCallback : Bool) (total : Nat) :
    List (List String) → Nat → Nat → List (List String) × Nat × Nat × List Event
  | [], cnt, k => ([], cnt, k, [])
  | p :: rest, cnt, k =>
    let r := walkUnits backend encode sentTok language tokenLimit tmpl genre bilingual
      finalTitle finalAuthor hasCallback total p cnt k
    let t := walkParts backend encode sentTok language tokenLimit tmpl genre bilingual
      finalTitle finalAuthor hasCallback total rest r.2.1 r.2.2.1
    (r.1 :: t.1, t.2.1, t.2.2.1, r.2.2.2 ++ t.2.2.2)

/-- `translate_book` from `translator.py`: resolve title and author (override
wins when nonempty, then EPUB metadata, then the fallback literals), run the
pre-pass paragraph count, and walk the document; returns the rewritten
document, the final `current_count`, the final backend call index, and the
full event trace. -/
def translate_book (backend : Nat → BackendResp) (encode : String → List Nat)
    (sentTok : String → List String) (book : Book) (language : String)
    (tokenLimit : Nat) (tmpl : Template) (hasCallback : Bool) (genre : String)
    (bilingual : Bool) (overrideTitle overrideAuthor : String) :
    List (List String) × Nat × Nat × List Event :=
  let epubTitle := book.title.getD "Unknown Title"
  let epubAuthor := book.author.getD "Unknown Author"
  let finalTitle := if overrideTitle ≠ "" then overrideTitle else epubTitle
  let finalAuthor := if overrideAuthor ≠ "" then overrideAuthor else epubAuthor
  let total := count_paragraphs_in_book book
  walkParts backend encode sentTok language tokenLimit tmpl genre bilingual
    finalTitle finalAuthor hasCallback total book.parts 0 0

/-! ### Derived definitions used by the verification -/

/-- No pair of adjacent whitespace characters. -/
def NoAdj (l : List Char) : Prop :=
  List.Chain' (fun a b => ¬(isSpaceCh a = true ∧ isSpaceCh b = true)) l

/-- The token estimator does not charge extra for joining two spans with a
single space: the estimate of `a ++ " " ++ b` is at most the sum of the
estimates of `a` and `b`. -/
def SubAdd (encode : String → List Nat) : Prop :=
  ∀ a b : String,
    count_tokens encode (a ++ " " ++ b) ≤ count_tokens encode a + count_tokens encode b

/-- Whether an event is a backend invocation. -/
def isCall : Event → Bool
  | Event.call _ => true
  | _ => false

/-- The number of backend invocations in a trace. -/
def countCalls (evs : List Event) : Nat := evs.countP isCall

/-- The progress notifications of a trace, in order. -/
def progressPairs (evs : List Event) : List (Nat × Nat) :=
  evs.filterMap (fun e => match e with
    | Event.progress c t => some (c, t)
    | _ => none)

/-- A concrete deterministic encoder: one token per character. -/
def lenc (s : String) : List Nat := List.range s.length

/-- A concrete sentence splitter: the whole text is a single sentence
(`sent_tokenize` on a one-sentence input), the empty text has no sentences. -/
def oneSent (s : String) : List String := if s = "" then [] else [s]

/-- A backend whose every response fails the well-formedness check. -/
def mfB : Nat → BackendResp := fun _ => BackendResp.malformed

/-- A backend that always answers well-formed with content `" Hello "`. -/
def okB : Nat → BackendResp := fun _ => BackendResp.ok " Hello "

/-! ### Lemmas: the text normalizer -/

lemma fixChar_idem (b : Char) : fixChar (fixChar b) = fixChar b := by
  unfold fixChar fixNewline fixQuote
  by_cases h1 : b = '\n' ∨ b = '\r'
  · simp [h1]
  · simp only [if_neg h1]
    by_cases h2 : b = '’' ∨ b = '‘'
    · simp [h2]
    · simp [h1, h2]

lemma fixChar_blank : fixChar ' ' = ' ' := by decide

lemma mem_collapseWS : ∀ (l : List Char), ∀ c ∈ collapseWS l, c = ' ' ∨ c ∈ l := by
  intro l
  induction l using collapseWS.induct with
  | case1 => intro c hc; simp [collapseWS] at hc
  | case2 d hd => intro c hc; simp [collapseWS, hd] at hc; exact Or.inl hc
  | case3 d hd =>
    intro c hc; simp [collapseWS, hd] at hc; exact Or.inr (by simp [hc])
  | case4 c0 d rest hc0 hd ih =>
    intro c hc
    simp only [collapseWS, if_pos hc0, if_pos hd] at hc
    rcases ih c hc with h | h
    · exact Or.inl h
    · exact Or.inr (List.mem_cons_of_mem _ h)
  | case5 c0 d rest hc0 hd ih =>
    intro c hc
    simp only [collapseWS, if_pos hc0, if_neg hd, List.mem_cons] at hc
    rcases hc with h | h
    · exact Or.inl h
    · rcases ih c h with h | h
      · exact Or.inl h
      · exact Or.inr (List.mem_cons_of_mem _ h)
  | case6 c0 d rest hc0 ih =>
    intro c hc
    simp only [collapseWS, if_neg hc0, List.mem_cons] at hc
    rcases hc with h | h
    · exact Or.inr (by simp [h])
    · rcases ih c h with h | h
      · exact Or.inl h
      · exact Or.inr (List.mem_cons_of_mem _ h)

lemma collapse_space_blank :
    ∀ (l : List Char), ∀ c ∈ collapseWS l, isSpaceCh c = true → c = ' ' := by
  intro l
  induction l using collapseWS.induct with
  | case1 => intro c hc; simp [collapseWS] at hc
  | case2 d hd => intro c hc _; simpa [collapseWS, hd] using hc
  | case3 d hd =>
    intro c hc hsp
    simp [collapseWS, hd] at hc
    rw [hc] at hsp; exact absurd hsp (by simpa using hd)
  | case4 c0 d rest hc0 hd ih =>
    intro c hc hsp
    simp only [collapseWS, if_pos hc0, if_pos hd] at hc
    exact ih c hc hsp
  | case5 c0 d rest hc0 hd ih =>
    intro c hc hsp
    simp only [collapseWS, if_pos hc0, if_neg hd, List.mem_cons] at hc
    rcases hc with h | h
    · exact h
    · exact ih c h hsp
  | case6 c0 d rest hc0 ih =>
    intro c hc hsp
    simp only [collapseWS, if_neg hc0, List.mem_cons] at hc
    rcases hc with h | h
    · rw [h] at hsp; exact absurd hsp (by simpa using hc0)
    · exact ih c h hsp

lemma collapse_cons_head (rest : List Char) : ∀ (d : Char),
    (collapseWS (d :: rest)).head? = some (if isSpaceCh d then ' ' else d) := by
  induction rest with
  | nil =>
    intro d
    by_cases hd : isSpaceCh d <;> simp [collapseWS, hd]
  | cons e rest ih =>
    intro d
    by_cases hd : isSpaceCh d
    · by_cases he : isSpaceCh e
      · rw [show collapseWS (d :: e :: rest) = collapseWS (e :: rest) by
          simp [collapseWS, hd, he], ih e]
        simp [hd, he]
      · simp [collapseWS, hd, he]
    · simp [collapseWS, hd]

lemma collapse_chain : ∀ (l : List Char), NoAdj (collapseWS l) := by
  intro l
  induction l using collapseWS.induct with
  | case1 => simp [collapseWS, NoAdj]
  | case2 d hd => simp [collapseWS, hd, NoAdj]
  | case3 d hd => simp [collapseWS, hd, NoAdj]
  | case4 c0 d rest hc0 hd ih =>
    simpa only [collapseWS, if_pos hc0, if_pos hd] using ih
  | case5 c0 d rest hc0 hd ih =>
    simp only [collapseWS, if_pos hc0, if_neg hd]
    rw [NoAdj, List.chain'_cons']
    refine ⟨?_, ih⟩
    intro y hy
    rw [collapse_cons_head rest d, if_neg hd, Option.mem_def, Option.some_inj] at hy
    subst hy
    exact fun hcon => hd hcon.2
  | case6 c0 d rest hc0 ih =>
    simp only [collapseWS, if_neg hc0]
    rw [NoAdj, List.chain'_cons']
    exact ⟨fun y _ hcon => hc0 hcon.1, ih⟩

lemma collapse_id : ∀ (l : List Char),
    (∀ c ∈ l, isSpaceCh c = true → c = ' ') → NoAdj l → collapseWS l = l := by
  intro l
  induction l using collapseWS.induct with
  | case1 => intro _ _; rfl
  | case2 d hd =>
    intro hbl _
    have : d = ' ' := hbl d (by simp) hd
    simp [collapseWS, hd, this]
  | case3 d hd => intro _ _; simp [collapseWS, hd]
  | case4 c0 d rest hc0 hd ih =>
    intro _ hadj
    rw [NoAdj, List.chain'_cons'] at hadj
    exact absurd ⟨hc0, hd⟩ (hadj.1 d (by simp))
  | case5 c0 d rest hc0 hd ih =>
    intro hbl hadj
    rw [NoAdj, List.chain'_cons'] at hadj
    have hc0' : c0 = ' ' := hbl c0 (by simp) hc0
    simp only [collapseWS, if_pos hc0, if_neg hd]
    rw [ih (fun c hc => hbl c (List.mem_cons_of_mem _ hc)) hadj.2, hc0']
  | case6 c0 d rest hc0 ih =>
    intro hbl hadj
    rw [NoAdj, List.chain'_cons'] at hadj
    simp only [collapseWS, if_neg hc0]
    rw [ih (fun c hc => hbl c (List.mem_cons_of_mem _ hc)) hadj.2]

lemma dropWhile_idem (p : Char → Bool) :
    ∀ (l : List Char), List.dropWhile p (List.dropWhile p l) = List.dropWhile p l := by
  intro l
  induction l with
  | nil => rfl
  | cons a l ih =>
    by_cases h : p a
    · simp [List.dropWhile_cons, h, ih]
    · simp [List.dropWhile_cons, h]

lemma head_dropWhile (p : Char → Bool) (l : List Char) {c : Char}
    (h : (List.dropWhile p l).head? = some c) : p c = false := by
  have := List.head?_dropWhile_not p l
  rw [h] at this
  exact this

lemma dropWhile_eq_self_of_head (p : Char → Bool) (l : List Char)
    (h : ∀ c, l.head? = some c → p c = false) : List.dropWhile p l = l := by
  cases l with
  | nil => rfl
  | cons a l => simp [List.dropWhile_cons, h a rfl]

lemma getLast?_dropWhile (p : Char → Bool) :
    ∀ (l : List Char), List.dropWhile p l ≠ [] →
      (List.dropWhile p l).getLast? = l.getLast? := by
  intro l
  induction l with
  | nil => intro h; exact absurd rfl h
  | cons a l ih =>
    intro h
    by_cases hp : p a
    · rw [List.dropWhile_cons, if_pos hp] at h ⊢
      rw [ih h]
      cases l with
      | nil => simp [List.dropWhile] at h
      | cons b l => rw [List.getLast?_cons_cons]
    · rw [List.dropWhile_cons, if_neg hp]

lemma stripList_mem {c : Char} {l : List Char} (h : c ∈ stripList l) : c ∈ l := by
  unfold stripList at h
  rw [List.mem_reverse] at h
  have h1 := ((List.dropWhile_sublist _).mem h)
  rw [List.mem_reverse] at h1
  exact (List.dropWhile_sublist _).mem h1

lemma stripList_idem (l : List Char) : stripList (stripList l) = stripList l := by
  by_cases hv : List.dropWhile isSpaceCh (List.dropWhile isSpaceCh l).reverse = []
  · unfold stripList
    rw [hv]
    rfl
  · unfold stripList
    have hfix : List.dropWhile isSpaceCh
        (List.dropWhile isSpaceCh (List.dropWhile isSpaceCh l).reverse).reverse =
        (List.dropWhile isSpaceCh (List.dropWhile isSpaceCh l).reverse).reverse := by
      apply dropWhile_eq_self_of_head
      intro c hc
      rw [List.head?_reverse, getLast?_dropWhile _ _ hv, List.getLast?_reverse] at hc
      exact head_dropWhile isSpaceCh l hc
    rw [hfix, List.reverse_reverse, dropWhile_idem]

lemma NoAdj.ofSuffix {l₁ l₂ : List Char} (h : l₁ <:+ l₂) (hn : NoAdj l₂) : NoAdj l₁ :=
  hn.suffix h

lemma NoAdj.reverse {l : List Char} (h : NoAdj l) : NoAdj l.reverse := by
  rw [NoAdj, List.chain'_reverse]
  exact h.imp (fun a b hab hcon => hab ⟨hcon.2, hcon.1⟩)

lemma dropWhile_suffix_self (p : Char → Bool) : ∀ (l : List Char),
    List.dropWhile p l <:+ l := by
  intro l
  induction l with
  | nil => exact List.suffix_rfl
  | cons a l ih =>
    by_cases h : p a
    · rw [List.dropWhile_cons, if_pos h]
      exact ih.trans (List.suffix_cons a l)
    · rw [List.dropWhile_cons, if_neg h]

lemma stripList_noAdj {l : List Char} (h : NoAdj l) : NoAdj (stripList l) := by
  have h2 : NoAdj (List.dropWhile isSpaceCh l) := h.ofSuffix (dropWhile_suffix_self _ _)
  have h4 := (h2.reverse.ofSuffix (dropWhile_suffix_self isSpaceCh _)).reverse
  exact h4

/-- C10: the text normalizer is idempotent: cleaning an already-cleaned string
changes nothing, `clean_text (clean_text s) = clean_text s` for every `s`. -/
theorem clean_text_idempotent (s : String) : clean_text (clean_text s) = clean_text s := by
  show clean_text ⟨stripList (collapseWS (s.data.map fixChar))⟩ = _
  unfold clean_text
  set out := stripList (collapseWS (s.data.map fixChar)) with hout
  show (⟨stripList (collapseWS ((String.mk out).data.map fixChar))⟩ : String) = ⟨out⟩
  have hdata : (String.mk out).data = out := rfl
  rw [hdata]
  have hmap : out.map fixChar = out := by
    have hpt : ∀ c ∈ out, fixChar c = c := by
      intro c hc
      have hc' : c ∈ collapseWS (s.data.map fixChar) := stripList_mem hc
      rcases mem_collapseWS _ c hc' with h | h
      · rw [h]; exact fixChar_blank
      · rcases List.mem_map.mp h with ⟨b, _, hb⟩
        rw [← hb]; exact fixChar_idem b
    calc out.map fixChar = out.map id := List.map_congr_left hpt
    _ = out := List.map_id out
  rw [hmap]
  have hcoll : collapseWS out = out := by
    apply collapse_id
    · intro c hc hsp
      exact collapse_space_blank _ c (stripList_mem hc) hsp
    · exact stripList_noAdj (collapse_chain _)
  rw [hcoll, hout, stripList_idem]

/-! ### Lemmas: the chunker -/

lemma split_go_eq_groups (encode : String → List Nat) (B : Nat) :
    ∀ (sents cur : List String) (curLen : Nat),
      split_go encode B sents cur curLen =
        (groups_go encode B sents cur curLen).map joinSpace := by
  intro sents
  induction sents with
  | nil =>
    intro cur curLen
    by_cases h : cur = [] <;> simp [split_go, groups_go, h]
  | cons s rest ih =>
    intro cur curLen
    simp only [split_go, groups_go]
    by_cases h : curLen + count_tokens encode (clean_text s) > B
    · rw [if_pos h, if_pos h, List.map_append, ih]
      by_cases hc : cur = [] <;> simp [hc]
    · rw [if_neg h, if_neg h, ih]

lemma groups_flatten (encode : String → List Nat) (B : Nat) :
    ∀ (sents cur : List String) (curLen : Nat),
      (groups_go encode B sents cur curLen).flatten = cur ++ sents.map clean_text := by
  intro sents
  induction sents with
  | nil =>
    intro cur curLen
    by_cases h : cur = [] <;> simp [groups_go, h]
  | cons s rest ih =>
    intro cur curLen
    simp only [groups_go]
    by_cases h : curLen + count_tokens encode (clean_text s) > B
    · rw [if_pos h, List.flatten_append, ih]
      by_cases hc : cur = [] <;> simp [hc]
    · rw [if_neg h, ih]
      simp

lemma groups_budget (encode : String → List Nat) (B : Nat) :
    ∀ (sents cur : List String) (curLen : Nat),
      curLen = (cur.map (count_tokens encode)).sum →
      (2 ≤ cur.length → curLen ≤ B) →
      ∀ g ∈ groups_go encode B sents cur curLen,
        g ≠ [] ∧ (g.length = 1 ∨ (g.map (count_tokens encode)).sum ≤ B) := by
  intro sents
  induction sents with
  | nil =>
    intro cur curLen hsum hbound g hg
    by_cases hc : cur = []
    · simp [groups_go, hc] at hg
    · simp only [groups_go, if_neg hc, List.mem_singleton] at hg
      subst hg
      refine ⟨hc, ?_⟩
      by_cases h1 : g.length = 1
      · exact Or.inl h1
      · refine Or.inr ?_
        rw [← hsum]
        have hlen : g.length ≠ 0 := fun h0 => hc (List.eq_nil_of_length_eq_zero h0)
        exact hbound (by omega)
  | cons s rest ih =>
    intro cur curLen hsum hbound g hg
    simp only [groups_go] at hg
    by_cases h : curLen + count_tokens encode (clean_text s) > B
    · rw [if_pos h] at hg
      rcases List.mem_append.mp hg with h1 | h2
      · by_cases hc : cur = []
        · simp [hc] at h1
        · rw [if_neg hc, List.mem_singleton] at h1
          subst h1
          refine ⟨hc, ?_⟩
          by_cases hl1 : g.length = 1
          · exact Or.inl hl1
          · refine Or.inr ?_
            rw [← hsum]
            have hlen : g.length ≠ 0 := fun h0 => hc (List.eq_nil_of_length_eq_zero h0)
            exact hbound (by omega)
      · exact ih [clean_text s] _ (by simp) (by intro h2; simp at h2) g h2
    · rw [if_neg h] at hg
      refine ih (cur ++ [clean_text s]) _ ?_ ?_ g hg
      · rw [List.map_append, List.sum_append, hsum]
        simp
      · intro _
        omega

lemma joinSpace_append : ∀ (a b : List String), a ≠ [] → b ≠ [] →
    joinSpace (a ++ b) = joinSpace a ++ " " ++ joinSpace b := by
  intro a
  induction a with
  | nil => intro b h _; exact absurd rfl h
  | cons x a ih =>
    intro b _ hb
    cases a with
    | nil =>
      cases b with
      | nil => exact absurd rfl hb
      | cons y b2 => simp [joinSpace]
    | cons y a2 =>
      have h1 : (x :: y :: a2) ++ b = x :: ((y :: a2) ++ b) := by simp
      rw [h1]
      have h2 : (y :: a2) ++ b = y :: (a2 ++ b) := by simp
      show x ++ " " ++ joinSpace ((y :: a2) ++ b) = _
      rw [ih b (by simp) hb]
      show _ = x ++ " " ++ joinSpace (y :: a2) ++ " " ++ joinSpace b
      rw [String.append_assoc (x ++ " "), String.append_assoc (x ++ " ")]

lemma joinSpace_flatten : ∀ (L : List (List String)), (∀ g ∈ L, g ≠ []) →
    joinSpace (L.map joinSpace) = joinSpace L.flatten := by
  intro L
  induction L with
  | nil => intro _; rfl
  | cons g L ih =>
    intro h
    cases L with
    | nil => simp [joinSpace]
    | cons g2 L2 =>
      have hg : g ≠ [] := h g (by simp)
      have hg2 : g2 ≠ [] := h g2 (by simp)
      have hfl : (g2 :: L2).flatten ≠ [] := by
        simp only [List.flatten_cons]
        intro h0
        exact hg2 (List.append_eq_nil.mp h0).1
      have hmap : (g :: g2 :: L2).map joinSpace =
          joinSpace g :: (g2 :: L2).map joinSpace := rfl
      rw [hmap]
      show joinSpace g ++ " " ++ joinSpace ((g2 :: L2).map joinSpace) = _
      rw [ih (fun x hx => h x (List.mem_cons_of_mem _ hx))]
      show _ = joinSpace (g ++ (g2 :: L2).flatten)
      rw [joinSpace_append g _ hg hfl]

lemma joinSpace_ne_empty : ∀ (g : List String), g ≠ [] → (∀ x ∈ g, x ≠ "") →
    joinSpace g ≠ "" := by
  intro g
  induction g with
  | nil => intro h _; exact absurd rfl h
  | cons x g ih =>
    intro _ hx
    cases g with
    | nil => exact hx x (by simp)
    | cons y g2 =>
      show x ++ " " ++ joinSpace (y :: g2) ≠ ""
      intro hcon
      have hlen := congrArg String.length hcon
      rw [String.length_append, String.length_append] at hlen
      have hsp : (" " : String).length = 1 := rfl
      have hz : ("" : String).length = 0 := rfl
      omega

lemma mem_chars_joinSpace : ∀ (g : List String) (x : String), x ∈ g →
    ∀ c ∈ x.data, c ∈ (joinSpace g).data := by
  intro g
  induction g with
  | nil => intro x hx; simp at hx
  | cons y g ih =>
    intro x hx c hc
    cases g with
    | nil =>
      rw [List.mem_singleton] at hx
      subst hx
      exact hc
    | cons z g2 =>
      rcases List.mem_cons.mp hx with h | h
      · subst h
        show c ∈ (x ++ " " ++ joinSpace (z :: g2)).data
        rw [String.data_append, String.data_append]
        exact List.mem_append.mpr (Or.inl (List.mem_append.mpr (Or.inl hc)))
      · show c ∈ (y ++ " " ++ joinSpace (z :: g2)).data
        rw [String.data_append]
        exact List.mem_append.mpr (Or.inr (ih x h c hc))

lemma mem_dropWhile_of_neg (p : Char → Bool) : ∀ (l : List Char) (c : Char),
    c ∈ l → p c = false → c ∈ List.dropWhile p l := by
  intro l
  induction l with
  | nil => intro c hc _; simp at hc
  | cons a rest ih =>
    intro c hc hp
    by_cases ha : p a
    · rw [List.dropWhile_cons, if_pos ha]
      rcases List.mem_cons.mp hc with h | h
      · subst h; rw [hp] at ha; exact absurd ha (by simp)
      · exact ih c h hp
    · rw [List.dropWhile_cons, if_neg (by simpa using ha)]
      exact hc

lemma stripList_ne_nil_of_nonspace {l : List Char} {c : Char}
    (hc : c ∈ l) (hns : isSpaceCh c = false) : stripList l ≠ [] := by
  have h1 := mem_dropWhile_of_neg isSpaceCh l c hc hns
  have h2 := mem_dropWhile_of_neg isSpaceCh _ c (List.mem_reverse.mpr h1) hns
  exact List.ne_nil_of_mem (List.mem_reverse.mpr h2)

lemma chunkGroups_flatten (encode : String → List Nat) (sentTok : String → List String)
    (text : String) (B : Nat) :
    (chunkGroups encode sentTok text B).flatten = (sentTok text).map clean_text := by
  unfold chunkGroups
  rw [groups_flatten]
  rfl

lemma chunkGroups_budget (encode : String → List Nat) (sentTok : String → List String)
    (text : String) (B : Nat) :
    ∀ g ∈ chunkGroups encode sentTok text B,
      g ≠ [] ∧ (g.length = 1 ∨ (g.map (count_tokens encode)).sum ≤ B) :=
  groups_budget encode B (sentTok text) [] 0 (by simp) (by intro h; simp at h)

lemma split_eq_map_join (encode : String → List Nat) (sentTok : String → List String)
    (text : String) (B : Nat) :
    split_text_by_tokens encode sentTok text B =
      (chunkGroups encode sentTok text B).map joinSpace :=
  split_go_eq_groups encode B (sentTok text) [] 0

lemma subAdd_joinSpace (encode : String → List Nat) (h : SubAdd encode) :
    ∀ (g : List String), g ≠ [] →
      count_tokens encode (joinSpace g) ≤ (g.map (count_tokens encode)).sum := by
  intro g
  induction g with
  | nil => intro h0; exact absurd rfl h0
  | cons x g ih =>
    intro _
    cases g with
    | nil => simp [joinSpace]
    | cons y g2 =>
      have h1 : count_tokens encode (joinSpace (x :: y :: g2)) =
          count_tokens encode (x ++ " " ++ joinSpace (y :: g2)) := rfl
      rw [h1]
      calc count_tokens encode (x ++ " " ++ joinSpace (y :: g2))
          ≤ count_tokens encode x + count_tokens encode (joinSpace (y :: g2)) := h _ _
        _ ≤ count_tokens encode x + ((y :: g2).map (count_tokens encode)).sum :=
            Nat.add_le_add_left (ih (by simp)) _
        _ = ((x :: y :: g2).map (count_tokens encode)).sum := by simp

/-! ### Claim theorems: the chunker (C2, C3, C8) -/

/-- C2: every chunk emitted by `split_text_by_tokens` is the space-join of a
nonempty run of consecutive cleaned sentences; unless the chunk consists of a
single sentence, the token estimate the chunker tracks for it (the sum of its
sentences' estimates) is at most the budget `B`; a single sentence whose own
estimate exceeds `B` is still emitted as its own chunk and never discarded
(the flatten equation keeps every sentence); and whenever the external
estimator charges no extra for space-joins, the emitted chunk string's own
token estimate is also at most `B` except for such singleton chunks. -/
theorem chunk_budget (encode : String → List Nat) (sentTok : String → List String)
    (text : String) (B : Nat) (g : List String)
    (hg : g ∈ chunkGroups encode sentTok text B) :
    g ≠ [] ∧
    (g.length = 1 ∨ (g.map (count_tokens encode)).sum ≤ B) ∧
    (SubAdd encode → g.length = 1 ∨ count_tokens encode (joinSpace g) ≤ B) ∧
    split_text_by_tokens encode sentTok text B =
      (chunkGroups encode sentTok text B).map joinSpace ∧
    (chunkGroups encode sentTok text B).flatten = (sentTok text).map clean_text := by
  obtain ⟨h1, h2⟩ := chunkGroups_budget encode sentTok text B g hg
  refine ⟨h1, h2, ?_, split_eq_map_join encode sentTok text B,
    chunkGroups_flatten encode sentTok text B⟩
  intro hsub
  rcases h2 with h | h
  · exact Or.inl h
  · exact Or.inr (le_trans (subAdd_joinSpace encode hsub g h1) h)

theorem chunk_budget_witness :
    (["Hi."] : List String) ≠ [] ∧
    ((["Hi."] : List String).length = 1 ∨
      ((["Hi."] : List String).map (count_tokens lenc)).sum ≤ 5) ∧
    (SubAdd lenc → (["Hi."] : List String).length = 1 ∨
      count_tokens lenc (joinSpace ["Hi."]) ≤ 5) ∧
    split_text_by_tokens lenc oneSent "Hi." 5 =
      (chunkGroups lenc oneSent "Hi." 5).map joinSpace ∧
    (chunkGroups lenc oneSent "Hi." 5).flatten = (oneSent "Hi.").map clean_text :=
  chunk_budget lenc oneSent "Hi." 5 ["Hi."] (by decide)

/-- C3: joining the chunker's output with single spaces reconstructs, without
re-ordering or altering any sentence, the space-join of the cleaned sentences
(unconditionally); hence, whenever the external sentence splitter satisfies
the reconstruction property the spec assumes of it, re-normalizing the joined
chunks yields exactly the normalized paragraph text. -/
theorem chunks_reconstruct (encode : String → List Nat) (sentTok : String → List String)
    (text : String) (B : Nat)
    (hrecon : clean_text (joinSpace ((sentTok text).map clean_text)) = clean_text text) :
    joinSpace (split_text_by_tokens encode sentTok text B) =
      joinSpace ((sentTok text).map clean_text) ∧
    clean_text (joinSpace (split_text_by_tokens encode sentTok text B)) = clean_text text := by
  have h1 : joinSpace (split_text_by_tokens encode sentTok text B) =
      joinSpace ((sentTok text).map clean_text) := by
    rw [split_eq_map_join,
      joinSpace_flatten _ (fun g hg => (chunkGroups_budget encode sentTok text B g hg).1),
      chunkGroups_flatten]
  exact ⟨h1, by rw [h1]; exact hrecon⟩

theorem chunks_reconstruct_witness :
    joinSpace (split_text_by_tokens lenc oneSent "Hello world." 3) =
      joinSpace ((oneSent "Hello world.").map clean_text) ∧
    clean_text (joinSpace (split_text_by_tokens lenc oneSent "Hello world." 3)) =
      clean_text "Hello world." :=
  chunks_reconstruct lenc oneSent "Hello world." 3 (by decide)

/-- C8: the chunker yields the empty chunk sequence on the empty input text
(the external splitter finds no sentences there); every emitted chunk is a
nonempty string provided every sentence survives cleaning, as the spec assumes
of the external splitter; and the chunks' constituent sentences, flattened in
order, are exactly the cleaned sentences of the input in their original
order. -/
theorem chunker_output_shape (encode : String → List Nat) (sentTok : String → List String)
    (B : Nat) (text : String)
    (h0 : sentTok "" = [])
    (hne : ∀ s ∈ sentTok text, clean_text s ≠ "") :
    split_text_by_tokens encode sentTok "" B = [] ∧
    (∀ ch ∈ split_text_by_tokens encode sentTok text B, ch ≠ "") ∧
    (chunkGroups encode sentTok text B).flatten = (sentTok text).map clean_text := by
  refine ⟨?_, ?_, chunkGroups_flatten encode sentTok text B⟩
  · unfold split_text_by_tokens
    rw [h0]
    rfl
  · intro ch hch
    rw [split_eq_map_join] at hch
    rcases List.mem_map.mp hch with ⟨g, hg, rfl⟩
    have hg1 := (chunkGroups_budget encode sentTok text B g hg).1
    apply joinSpace_ne_empty g hg1
    intro x hx
    have hxf : x ∈ (chunkGroups encode sentTok text B).flatten :=
      List.mem_flatten.mpr ⟨g, hg, hx⟩
    rw [chunkGroups_flatten] at hxf
    rcases List.mem_map.mp hxf with ⟨s, hs, hsx⟩
    rw [← hsx]
    exact hne s hs

theorem chunker_output_shape_witness :
    split_text_by_tokens lenc oneSent "" 5 = [] ∧
    (∀ ch ∈ split_text_by_tokens lenc oneSent "Hi." 5, ch ≠ "") ∧
    (chunkGroups lenc oneSent "Hi." 5).flatten = (oneSent "Hi.").map clean_text :=
  chunker_output_shape lenc oneSent 5 "Hi." (by decide) (by decide)

/-! ### Lemmas: the retry loop and the chunk loop -/

lemma countCalls_attempt (backend : Nat → BackendResp) (prompt : String) (delay : ℚ) :
    ∀ (n k : Nat), countCalls (attemptChunk backend prompt delay k n).2.2 ≤ n := by
  intro n
  induction n with
  | zero => intro k; simp [attemptChunk, countCalls]
  | succ n ih =>
    intro k
    cases hb : backend k with
    | ok s => simp [attemptChunk, hb, countCalls, isCall]
    | malformed =>
      have := ih (k + 1)
      simp only [attemptChunk, hb, countCalls, List.countP_cons] at this ⊢
      simp [isCall]
      omega
    | err =>
      have := ih (k + 1)
      simp only [attemptChunk, hb, countCalls, List.countP_cons] at this ⊢
      simp [isCall]
      omega

lemma attempt_exhaust (backend : Nat → BackendResp) (prompt : String) (delay : ℚ) :
    ∀ (n k : Nat), (∀ i, i < n → ∀ s, backend (k + i) ≠ BackendResp.ok s) →
      (attemptChunk backend prompt delay k n).1 = none := by
  intro n
  induction n with
  | zero => intro k _; rfl
  | succ n ih =>
    intro k h
    have hshift : ∀ i, i < n → ∀ s, backend (k + 1 + i) ≠ BackendResp.ok s := by
      intro i hi s
      have := h (i + 1) (by omega) s
      rwa [show k + (i + 1) = k + 1 + i by omega] at this
    cases hb : backend k with
    | ok s => exact absurd hb (by simpa using h 0 (by omega) s)
    | malformed => simpa only [attemptChunk, hb] using ih (k + 1) hshift
    | err => simpa only [attemptChunk, hb] using ih (k + 1) hshift

lemma attempt_call_mem (backend : Nat → BackendResp) (prompt : String) (delay : ℚ)
    (k n : Nat) (hn : n ≠ 0) :
    Event.call prompt ∈ (attemptChunk backend prompt delay k n).2.2 := by
  cases n with
  | zero => exact absurd rfl hn
  | succ n => cases hb : backend k <;> simp [attemptChunk, hb]

lemma processChunks_call (backend : Nat → BackendResp) (tmpl : Template)
    (language genre title author : String) (maxRetries : Nat) (delay : ℚ)
    (hmr : maxRetries ≠ 0) :
    ∀ (chunks : List String) (k : Nat), (∃ c ∈ chunks, sstrip c ≠ "") →
      ∃ p, Event.call p ∈
        (processChunks backend tmpl language genre title author maxRetries delay chunks k).2.2 := by
  intro chunks
  induction chunks with
  | nil => intro k h; rcases h with ⟨c, hc, _⟩; simp at hc
  | cons c0 rest ih =>
    intro k h
    by_cases h0 : sstrip c0 = ""
    · rcases h with ⟨c, hc, hne⟩
      rcases List.mem_cons.mp hc with rfl | hc'
      · exact absurd h0 hne
      · have := ih k ⟨c, hc', hne⟩
        simpa [processChunks, h0] using this
    · refine ⟨renderTemplate tmpl (mkEnv language (sstrip c0) genre title author), ?_⟩
      have hcm := attempt_call_mem backend
        (renderTemplate tmpl (mkEnv language (sstrip c0) genre title author)) delay k
        maxRetries hmr
      simp only [processChunks, if_neg h0]
      cases hm : (attemptChunk backend
          (renderTemplate tmpl (mkEnv language (sstrip c0) genre title author))
          delay k maxRetries).1 with
      | some t => simp [hm]; exact Or.inl hcm
      | none => simp [hm]; exact Or.inl hcm

lemma stripList_head_nonspace {l : List Char} {c : Char}
    (h : (stripList l).head? = some c) : isSpaceCh c = false := by
  unfold stripList at h
  rw [List.head?_reverse] at h
  have hne : List.dropWhile isSpaceCh (List.dropWhile isSpaceCh l).reverse ≠ [] := by
    intro h0; rw [h0] at h; simp at h
  rw [getLast?_dropWhile _ _ hne, List.getLast?_reverse] at h
  exact head_dropWhile isSpaceCh l h

lemma exists_call_translate (backend : Nat → BackendResp) (encode : String → List Nat)
    (sentTok : String → List String) (text language : String) (tokenLimit : Nat)
    (tmpl : Template) (genre title author : String) (maxRetries : Nat) (delay : ℚ) (k : Nat)
    (hmr : maxRetries ≠ 0) (htext : sstrip text ≠ "")
    (s0 : String) (hs0 : s0 ∈ sentTok (sstrip text)) (hs0ne : clean_text s0 ≠ "") :
    ∃ p, Event.call p ∈ (translate_text backend encode sentTok text language tokenLimit
      tmpl genre title author maxRetries delay k).2.2 := by
  have hchunks : ∃ c ∈ split_text_by_tokens encode sentTok (sstrip text) (tokenLimit / 2),
      sstrip c ≠ "" := by
    have hmem : clean_text s0 ∈
        (chunkGroups encode sentTok (sstrip text) (tokenLimit / 2)).flatten := by
      rw [chunkGroups_flatten]
      exact List.mem_map_of_mem _ hs0
    rcases List.mem_flatten.mp hmem with ⟨g, hg, hxg⟩
    refine ⟨joinSpace g, ?_, ?_⟩
    · rw [split_eq_map_join]
      exact List.mem_map_of_mem _ hg
    · have hdata : (clean_text s0).data ≠ [] := by
        intro hnil
        exact hs0ne (String.ext hnil)
      obtain ⟨c, hc, hcns⟩ : ∃ c ∈ (clean_text s0).data, isSpaceCh c = false := by
        cases hd : (clean_text s0).data with
        | nil => exact absurd hd hdata
        | cons c rest =>
          refine ⟨c, by simp [hd], ?_⟩
          apply stripList_head_nonspace (l := collapseWS ((s0.data).map fixChar))
          show (clean_text s0).data.head? = some c
          rw [hd]
          rfl
      have hcj := mem_chars_joinSpace g (clean_text s0) hxg c hc
      intro hcon
      have : stripList (joinSpace g).data = [] := congrArg String.data hcon
      exact stripList_ne_nil_of_nonspace hcj hcns this
  have hpc := processChunks_call backend tmpl language genre title author maxRetries delay hmr
    (split_text_by_tokens encode sentTok (sstrip text) (tokenLimit / 2)) k hchunks
  simpa [translate_text, htext] using hpc

/-! ### Claim theorems: the translation invoker (C1) -/

/-- C1 (counterexample): with a backend whose responses always fail the
well-formedness check, all `max_retries = 3` attempts for the chunk fail, yet
the trace contains no per-attempt failure log and no `delay` wait — contrary
to the claim that every backend failure is logged and followed by a wait.
Only the final exhaustion is logged, the chunk contributes nothing, and the
call returns normally. -/
theorem translate_invoker_counterexample :
    translate_text mfB lenc oneSent "Bonjour" "English" 100 [TItem.var "text"]
      "General" "T" "A" 3 2 0 =
      ("", 3, [Event.call "Bonjour", Event.call "Bonjour", Event.call "Bonjour",
        Event.logChunkSkip]) ∧
    Event.logAttemptFailure ∉ (translate_text mfB lenc oneSent "Bonjour" "English" 100
      [TItem.var "text"] "General" "T" "A" 3 2 0).2.2 ∧
    Event.sleepDelay 2 ∉ (translate_text mfB lenc oneSent "Bonjour" "English" 100
      [TItem.var "text"] "General" "T" "A" 3 2 0).2.2 := by
  decide

/-- C1 (amended): for every chunk the invoker makes at most `max_retries`
backend attempts; a raised backend error is logged and followed by a `delay`
wait before the next attempt, while a response failing the well-formedness
check is retried immediately with no log and no wait; a well-formed response
exits the retry loop immediately with the trimmed response text; and when all
attempts fail the chunk yields no translation, the exhaustion is logged, the
chunk contributes nothing to the output list, and processing of the remaining
chunks continues with no error. -/
theorem translate_invoker_behavior
    (backend : Nat → BackendResp) (prompt : String) (delay : ℚ) (k n : Nat) :
    countCalls (attemptChunk backend prompt delay k n).2.2 ≤ n ∧
    (∀ s, n ≠ 0 → backend k = BackendResp.ok s →
      attemptChunk backend prompt delay k n = (some (sstrip s), k + 1, [Event.call prompt])) ∧
    (n ≠ 0 → backend k = BackendResp.err →
      (attemptChunk backend prompt delay k n).2.2 =
        Event.call prompt :: Event.logAttemptFailure :: Event.sleepDelay delay ::
          (attemptChunk backend prompt delay (k + 1) (n - 1)).2.2) ∧
    (n ≠ 0 → backend k = BackendResp.malformed →
      (attemptChunk backend prompt delay k n).2.2 =
        Event.call prompt :: (attemptChunk backend prompt delay (k + 1) (n - 1)).2.2) ∧
    ((∀ i, i < n → ∀ s, backend (k + i) ≠ BackendResp.ok s) →
      (attemptChunk backend prompt delay k n).1 = none) ∧
    (∀ (tmpl : Template) (language genre title author c : String) (rest : List String),
      sstrip c ≠ "" →
      (attemptChunk backend
          (renderTemplate tmpl (mkEnv language (sstrip c) genre title author)) delay k n).1 =
        none →
      processChunks backend tmpl language genre title author n delay (c :: rest) k =
        ((processChunks backend tmpl language genre title author n delay rest
            (attemptChunk backend
              (renderTemplate tmpl (mkEnv language (sstrip c) genre title author))
              delay k n).2.1).1,
          (processChunks backend tmpl language genre title author n delay rest
            (attemptChunk backend
              (renderTemplate tmpl (mkEnv language (sstrip c) genre title author))
              delay k n).2.1).2.1,
          (attemptChunk backend
              (renderTemplate tmpl (mkEnv language (sstrip c) genre title author))
              delay k n).2.2 ++ [Event.logChunkSkip] ++
            (processChunks backend tmpl language genre title author n delay rest
              (attemptChunk backend
                (renderTemplate tmpl (mkEnv language (sstrip c) genre title author))
                delay k n).2.1).2.2)) := by
  refine ⟨countCalls_attempt backend prompt delay n k, ?_, ?_, ?_,
    attempt_exhaust backend prompt delay n k, ?_⟩
  · intro s hn hok
    cases n with
    | zero => exact absurd rfl hn
    | succ n => simp [attemptChunk, hok]
  · intro hn herr
    cases n with
    | zero => exact absurd rfl hn
    | succ n => simp [attemptChunk, herr]
  · intro hn hmf
    cases n with
    | zero => exact absurd rfl hn
    | succ n => simp [attemptChunk, hmf]
  · intro tmpl language genre title author c rest hc hnone
    simp only [processChunks, if_neg hc, hnone]

theorem translate_invoker_behavior_witness :
    attemptChunk okB "p" 2 0 3 = (some "Hello", 1, [Event.call "p"]) := by
  have h := (translate_invoker_behavior okB "p" 2 0 3).2.1 " Hello " (by decide) rfl
  rw [h]
  decide

/-! ### Claim theorems: undefined template substitution points (C5) -/

/-- C5 (counterexample): a template referencing the undefined substitution
point `oops` loads without error and the run proceeds: the backend is invoked
(once), the undefined reference renders as the empty string inside the
prompt, and the translation completes normally — contrary to the claim that
such a run fails before any backend call. -/
theorem template_undefined_counterexample :
    load_prompt_template (some [TItem.var "oops", TItem.var "text"]) =
      Except.ok [TItem.var "oops", TItem.var "text"] ∧
    translate_text okB lenc oneSent "Bonjour" "English" 100
      [TItem.var "oops", TItem.var "text"] "General" "T" "A" 3 2 0 =
      ("Hello", 1, [Event.call "Bonjour"]) :=
  ⟨rfl, by decide⟩

/-- C5 (amended): an undefined substitution point is not detected and is not
fatal: template loading performs no reference validation and always succeeds
on a readable template, the environment binds only the five documented names
so an undefined name resolves to nothing and renders as the empty string, and
a run with such a template still invokes the translation backend. -/
theorem template_undefined_not_fatal
    (backend : Nat → BackendResp) (encode : String → List Nat)
    (sentTok : String → List String) (tmpl : Template) (name : String)
    (language : String) (tokenLimit : Nat) (genre title author : String)
    (maxRetries : Nat) (delay : ℚ) (k : Nat) (text : String)
    (hname : name ∉ (["language", "text", "genre", "title", "author"] : List String))
    (hmr : maxRetries ≠ 0) (htext : sstrip text ≠ "")
    (s0 : String) (hs0 : s0 ∈ sentTok (sstrip text)) (hs0ne : clean_text s0 ≠ "") :
    load_prompt_template (some tmpl) = Except.ok tmpl ∧
    (∀ a b c d e : String, mkEnv a b c d e name = none) ∧
    (∀ a b c d e : String, renderTemplate [TItem.var name] (mkEnv a b c d e) = "") ∧
    (∃ p, Event.call p ∈ (translate_text backend encode sentTok text language tokenLimit
      tmpl genre title author maxRetries delay k).2.2) := by
  have hns : name ≠ "language" ∧ name ≠ "text" ∧ name ≠ "genre" ∧
      name ≠ "title" ∧ name ≠ "author" := by
    simp only [List.mem_cons, List.mem_singleton] at hname
    push_neg at hname
    exact ⟨hname.1, hname.2.1, hname.2.2.1, hname.2.2.2.1, hname.2.2.2.2.1⟩
  have henv : ∀ a b c d e : String, mkEnv a b c d e name = none := by
    intro a b c d e
    simp [mkEnv, hns.1, hns.2.1, hns.2.2.1, hns.2.2.2.1, hns.2.2.2.2]
  refine ⟨rfl, henv, ?_, exists_call_translate backend encode sentTok text language
    tokenLimit tmpl genre title author maxRetries delay k hmr htext s0 hs0 hs0ne⟩
  intro a b c d e
  show String.join [((mkEnv a b c d e name).getD "")] = ""
  rw [henv a b c d e]
  rfl

theorem template_undefined_not_fatal_witness :
    load_prompt_template (some [TItem.var "oops", TItem.var "text"]) =
      Except.ok [TItem.var "oops", TItem.var "text"] ∧
    (∀ a b c d e : String, mkEnv a b c d e "oops" = none) ∧
    (∀ a b c d e : String, renderTemplate [TItem.var "oops"] (mkEnv a b c d e) = "") ∧
    (∃ p, Event.call p ∈ (translate_text okB lenc oneSent "Bonjour" "English" 100
      [TItem.var "oops", TItem.var "text"] "General" "T" "A" 3 2 0).2.2) :=
  template_undefined_not_fatal okB lenc oneSent [TItem.var "oops", TItem.var "text"]
    "oops" "English" 100 "General" "T" "A" 3 2 0 "Bonjour"
    (by decide) (by decide) (by decide) "Bonjour" (by decide) (by decide)

/-! ### Lemmas: the document walker -/

lemma progressPairs_append (a b : List Event) :
    progressPairs (a ++ b) = progressPairs a ++ progressPairs b :=
  List.filterMap_append a b _

lemma progress_attempt (backend : Nat → BackendResp) (prompt : String) (delay : ℚ) :
    ∀ (n k : Nat), progressPairs (attemptChunk backend prompt delay k n).2.2 = [] := by
  intro n
  induction n with
  | zero => intro k; rfl
  | succ n ih =>
    intro k
    cases hb : backend k with
    | ok s => simp [attemptChunk, hb, progressPairs]
    | malformed =>
      have := ih (k + 1)
      simp only [attemptChunk, hb, progressPairs, List.filterMap_cons] at this ⊢
      exact this
    | err =>
      have := ih (k + 1)
      simp only [attemptChunk, hb, progressPairs, List.filterMap_cons] at this ⊢
      exact this

lemma progress_processChunks (backend : Nat → BackendResp) (tmpl : Template)
    (language genre title author : String) (maxRetries : Nat) (delay : ℚ) :
    ∀ (chunks : List String) (k : Nat),
      progressPairs
        (processChunks backend tmpl language genre title author maxRetries delay chunks k).2.2 =
        [] := by
  intro chunks
  induction chunks with
  | nil => intro k; rfl
  | cons c0 rest ih =>
    intro k
    by_cases h0 : sstrip c0 = ""
    · simpa [processChunks, h0] using ih k
    · simp only [processChunks, if_neg h0]
      cases hm : (attemptChunk backend
          (renderTemplate tmpl (mkEnv language (sstrip c0) genre title author))
          delay k maxRetries).1 with
      | some t =>
        simp only [hm, progressPairs_append]
        rw [show progressPairs (attemptChunk backend
          (renderTemplate tmpl (mkEnv language (sstrip c0) genre title author))
          delay k maxRetries).2.2 = [] from progress_attempt _ _ _ _ _, ih]
        rfl
      | none =>
        simp only [hm, progressPairs_append]
        rw [show progressPairs (attemptChunk backend
          (renderTemplate tmpl (mkEnv language (sstrip c0) genre title author))
          delay k maxRetries).2.2 = [] from progress_attempt _ _ _ _ _, ih]
        rfl

lemma progress_translate (backend : Nat → BackendResp) (encode : String → List Nat)
    (sentTok : String → List String) (text language : String) (tokenLimit : Nat)
    (tmpl : Template) (genre title author : String) (maxRetries : Nat) (delay : ℚ)
    (k : Nat) :
    progressPairs (translate_text backend encode sentTok text language tokenLimit tmpl
      genre title author maxRetries delay k).2.2 = [] := by
  by_cases h : sstrip text = ""
  · simp [translate_text, h, progressPairs]
  · simpa [translate_text, h] using
      progress_processChunks backend tmpl language genre title author maxRetries delay _ k

lemma progress_processUnit (backend : Nat → BackendResp) (encode : String → List Nat)
    (sentTok : String → List String) (language : String) (tokenLimit : Nat)
    (tmpl : Template) (genre : String) (bilingual : Bool)
    (finalTitle finalAuthor u : String) (k : Nat) :
    progressPairs (processUnit backend encode sentTok language tokenLimit tmpl genre
      bilingual finalTitle finalAuthor u k).2.2 = [] := by
  by_cases h : clean_text (sstrip u) = ""
  · simp [processUnit, h, progressPairs]
  · simpa [processUnit, h] using
      progress_translate backend encode sentTok (clean_text (sstrip u)) language tokenLimit
        tmpl genre finalTitle finalAuthor 3 2 k

lemma walkUnits_spec (backend : Nat → BackendResp) (encode : String → List Nat)
    (sentTok : String → List String) (language : String) (tokenLimit : Nat)
    (tmpl : Template) (genre : String) (bilingual : Bool)
    (finalTitle finalAuthor : String) (hcb : Bool) (total : Nat) :
    ∀ (us : List String) (cnt k : Nat),
      (walkUnits backend encode sentTok language tokenLimit tmpl genre bilingual
        finalTitle finalAuthor hcb total us cnt k).2.1 = cnt + us.length ∧
      progressPairs (walkUnits backend encode sentTok language tokenLimit tmpl genre
        bilingual finalTitle finalAuthor hcb total us cnt k).2.2.2 =
        (if hcb then (List.range us.length).map (fun i => (cnt + i + 1, total)) else []) := by
  intro us
  induction us with
  | nil =>
    intro cnt k
    refine ⟨by simp [walkUnits], ?_⟩
    cases hcb <;> simp [walkUnits, progressPairs]
  | cons u rest ih =>
    intro cnt k
    obtain ⟨ihc, ihp⟩ := ih (cnt + 1)
      (processUnit backend encode sentTok language tokenLimit tmpl genre bilingual
        finalTitle finalAuthor u k).2.1
    constructor
    · simp only [walkUnits]
      rw [ihc]
      simp only [List.length_cons]
      omega
    · simp only [walkUnits, progressPairs_append]
      rw [progress_processUnit, ihp]
      cases hcb with
      | false => rfl
      | true =>
        simp only [if_true, List.nil_append, List.length_cons]
        have hhead : progressPairs [Event.progress (cnt + 1) total] = [(cnt + 1, total)] := rfl
        rw [hhead]
        rw [List.range_succ_eq_map, List.map_cons, List.map_map]
        show (cnt + 1, total) :: _ = (cnt + 0 + 1, total) :: _
        rw [show cnt + 0 + 1 = cnt + 1 by omega]
        show _ :: List.map (fun i => (cnt + 1 + i + 1, total)) (List.range rest.length) = _
        refine congrArg _ (List.map_congr_left ?_)
        intro i _
        show (cnt + 1 + i + 1, total) = (cnt + (i + 1) + 1, total)
        rw [show cnt + 1 + i + 1 = cnt + (i + 1) + 1 by omega]

lemma walkParts_spec (backend : Nat → BackendResp) (encode : String → List Nat)
    (sentTok : String → List String) (language : String) (tokenLimit : Nat)
    (tmpl : Template) (genre : String) (bilingual : Bool)
    (finalTitle finalAuthor : String) (hcb : Bool) (total : Nat) :
    ∀ (ps : List (List String)) (cnt k : Nat),
      (walkParts backend encode sentTok language tokenLimit tmpl genre bilingual
        finalTitle finalAuthor hcb total ps cnt k).2.1 = cnt + (ps.map List.length).sum ∧
      progressPairs (walkParts backend encode sentTok language tokenLimit tmpl genre
        bilingual finalTitle finalAuthor hcb total ps cnt k).2.2.2 =
        (if hcb then
          (List.range (ps.map List.length).sum).map (fun i => (cnt + i + 1, total))
         else []) := by
  intro ps
  induction ps with
  | nil =>
    intro cnt k
    refine ⟨by simp [walkParts], ?_⟩
    cases hcb <;> simp [walkParts, progressPairs]
  | cons p rest ih =>
    intro cnt k
    obtain ⟨huc, hup⟩ := walkUnits_spec backend encode sentTok language tokenLimit tmpl
      genre bilingual finalTitle finalAuthor hcb total p cnt k
    obtain ⟨ihc, ihp⟩ := ih
      (walkUnits backend encode sentTok language tokenLimit tmpl genre bilingual
        finalTitle finalAuthor hcb total p cnt k).2.1
      (walkUnits backend encode sentTok language tokenLimit tmpl genre bilingual
        finalTitle finalAuthor hcb total p cnt k).2.2.1
    constructor
    · simp only [walkParts]
      rw [ihc, huc]
      simp only [List.map_cons, List.sum_cons]
      omega
    · simp only [walkParts, progressPairs_append]
      rw [hup, ihp, huc]
      cases hcb with
      | false => rfl
      | true =>
        simp only [if_true, List.map_cons, List.sum_cons]
        rw [List.range_add, List.map_append, List.map_map]
        refine congrArg _ (List.map_congr_left ?_)
        intro i _
        show (cnt + p.length + i + 1, total) = (cnt + (p.length + i) + 1, total)
        rw [show cnt + p.length + i + 1 = cnt + (p.length + i) + 1 by omega]

lemma calls_attempt (backend : Nat → BackendResp) (prompt : String) (delay : ℚ) :
    ∀ (n k : Nat), ∀ e ∈ (attemptChunk backend prompt delay k n).2.2,
      isCall e = true → e = Event.call prompt := by
  intro n
  induction n with
  | zero => intro k e he; simp [attemptChunk] at he
  | succ n ih =>
    intro k e he hc
    cases hb : backend k with
    | ok s =>
      simp only [attemptChunk, hb] at he
      simpa using he
    | malformed =>
      simp only [attemptChunk, hb, List.mem_cons] at he
      rcases he with rfl | he
      · rfl
      · exact ih (k + 1) e he hc
    | err =>
      simp only [attemptChunk, hb, List.mem_cons] at he
      rcases he with rfl | rfl | rfl | he
      · rfl
      · simp [isCall] at hc
      · simp [isCall] at hc
      · exact ih (k + 1) e he hc

lemma calls_processChunks (backend : Nat → BackendResp) (tmpl : Template)
    (language genre title author : String) (maxRetries : Nat) (delay : ℚ) :
    ∀ (chunks : List String) (k : Nat),
      ∀ e ∈ (processChunks backend tmpl language genre title author maxRetries delay
          chunks k).2.2,
        isCall e = true →
        ∃ c, e = Event.call (renderTemplate tmpl (mkEnv language c genre title author)) := by
  intro chunks
  induction chunks with
  | nil => intro k e he; simp [processChunks] at he
  | cons c0 rest ih =>
    intro k e he hc
    by_cases h0 : sstrip c0 = ""
    · rw [show processChunks backend tmpl language genre title author maxRetries delay
          (c0 :: rest) k =
          processChunks backend tmpl language genre title author maxRetries delay rest k by
        simp [processChunks, h0]] at he
      exact ih k e he hc
    · simp only [processChunks, if_neg h0] at he
      cases hm : (attemptChunk backend
          (renderTemplate tmpl (mkEnv language (sstrip c0) genre title author))
          delay k maxRetries).1 with
      | some t =>
        rw [hm] at he
        simp only [List.mem_append] at he
        rcases he with he | he
        · exact ⟨sstrip c0, calls_attempt backend _ delay maxRetries k e he hc⟩
        · exact ih _ e he hc
      | none =>
        rw [hm] at he
        simp only [List.mem_append, List.mem_singleton] at he
        rcases he with (he | rfl) | he
        · exact ⟨sstrip c0, calls_attempt backend _ delay maxRetries k e he hc⟩
        · simp [isCall] at hc
        · exact ih _ e he hc

lemma calls_translate (backend : Nat → BackendResp) (encode : String → List Nat)
    (sentTok : String → List String) (text language : String) (tokenLimit : Nat)
    (tmpl : Template) (genre title author : String) (maxRetries : Nat) (delay : ℚ)
    (k : Nat) :
    ∀ e ∈ (translate_text backend encode sentTok text language tokenLimit tmpl genre
        title author maxRetries delay k).2.2,
      isCall e = true →
      ∃ c, e = Event.call (renderTemplate tmpl (mkEnv language c genre title author)) := by
  intro e he hc
  by_cases h : sstrip text = ""
  · simp [translate_text, h] at he
  · simp only [translate_text, if_neg h] at he
    exact calls_processChunks backend tmpl language genre title author maxRetries delay
      _ k e he hc

lemma calls_processUnit (backend : Nat → BackendResp) (encode : String → List Nat)
    (sentTok : String → List String) (language : String) (tokenLimit : Nat)
    (tmpl : Template) (genre : String) (bilingual : Bool)
    (finalTitle finalAuthor u : String) (k : Nat) :
    ∀ e ∈ (processUnit backend encode sentTok language tokenLimit tmpl genre bilingual
        finalTitle finalAuthor u k).2.2,
      isCall e = true →
      ∃ c, e = Event.call (renderTemplate tmpl
        (mkEnv language c genre finalTitle finalAuthor)) := by
  intro e he hc
  by_cases h : clean_text (sstrip u) = ""
  · simp [processUnit, h] at he
  · simp only [processUnit, if_neg h] at he
    exact calls_translate backend encode sentTok (clean_text (sstrip u)) language
      tokenLimit tmpl genre finalTitle finalAuthor 3 2 k e he hc

lemma calls_walkUnits (backend : Nat → BackendResp) (encode : String → List Nat)
    (sentTok : String → List String) (language : String) (tokenLimit : Nat)
    (tmpl : Template) (genre : String) (bilingual : Bool)
    (finalTitle finalAuthor : String) (hcb : Bool) (total : Nat) :
    ∀ (us : List String) (cnt k : Nat),
      ∀ e ∈ (walkUnits backend encode sentTok language tokenLimit tmpl genre bilingual
          finalTitle finalAuthor hcb total us cnt k).2.2.2,
        isCall e = true →
        ∃ c, e = Event.call (renderTemplate tmpl
          (mkEnv language c genre finalTitle finalAuthor)) := by
  intro us
  induction us with
  | nil => intro cnt k e he; simp [walkUnits] at he
  | cons u rest ih =>
    intro cnt k e he hc
    simp only [walkUnits, List.mem_append] at he
    rcases he with (he | he) | he
    · exact calls_processUnit backend encode sentTok language tokenLimit tmpl genre
        bilingual finalTitle finalAuthor u k e he hc
    · cases hcb with
      | false => simp at he
      | true =>
        simp only [if_true, List.mem_singleton] at he
        subst he
        simp [isCall] at hc
    · exact ih _ _ e he hc

lemma calls_walkParts (backend : Nat → BackendResp) (encode : String → List Nat)
    (sentTok : String → List String) (language : String) (tokenLimit : Nat)
    (tmpl : Template) (genre : String) (bilingual : Bool)
    (finalTitle finalAuthor : String) (hcb : Bool) (total : Nat) :
    ∀ (ps : List (List String)) (cnt k : Nat),
      ∀ e ∈ (walkParts backend encode sentTok language tokenLimit tmpl genre bilingual
          finalTitle finalAuthor hcb total ps cnt k).2.2.2,
        isCall e = true →
        ∃ c, e = Event.call (renderTemplate tmpl
          (mkEnv language c genre finalTitle finalAuthor)) := by
  intro ps
  induction ps with
  | nil => intro cnt k e he; simp [walkParts] at he
  | cons p rest ih =>
    intro cnt k e he hc
    simp only [walkParts, List.mem_append] at he
    rcases he with he | he
    · exact calls_walkUnits backend encode sentTok language tokenLimit tmpl genre
        bilingual finalTitle finalAuthor hcb total p cnt k e he hc
    · exact ih _ _ e he hc

/-! ### Claim theorems: the document walker (C4, C6, C7, C9) -/

/-- C4: for every document, the walker's progress counter starts at 0 and
after the full walk equals both the precomputed total and the number of Text
Units visited, with or without a callback; and with a callback supplied, the
emitted progress notifications are exactly `(1, total), (2, total), …,
(total, total)` — once per Text Unit (including empty ones), strictly
increasing by 1, with no gaps or duplicates and never exceeding the total. -/
theorem walker_progress_invariant (backend : Nat → BackendResp)
    (encode : String → List Nat) (sentTok : String → List String) (book : Book)
    (language : String) (tokenLimit : Nat) (tmpl : Template) (genre : String)
    (bilingual : Bool) (overrideTitle overrideAuthor : String) :
    (∀ hcb : Bool, (translate_book backend encode sentTok book language tokenLimit tmpl
      hcb genre bilingual overrideTitle overrideAuthor).2.1 =
        count_paragraphs_in_book book) ∧
    progressPairs (translate_book backend encode sentTok book language tokenLimit tmpl
        true genre bilingual overrideTitle overrideAuthor).2.2.2 =
      (List.range (count_paragraphs_in_book book)).map
        (fun i => (i + 1, count_paragraphs_in_book book)) := by
  constructor
  · intro hcb
    have h := (walkParts_spec backend encode sentTok language tokenLimit tmpl genre
      bilingual (if overrideTitle ≠ "" then overrideTitle else book.title.getD "Unknown Title")
      (if overrideAuthor ≠ "" then overrideAuthor else book.author.getD "Unknown Author")
      hcb (count_paragraphs_in_book book) book.parts 0 0).1
    simpa [translate_book, count_paragraphs_in_book] using h
  · have h := (walkParts_spec backend encode sentTok language tokenLimit tmpl genre
      bilingual (if overrideTitle ≠ "" then overrideTitle else book.title.getD "Unknown Title")
      (if overrideAuthor ≠ "" then overrideAuthor else book.author.getD "Unknown Author")
      true (count_paragraphs_in_book book) book.parts 0 0).2
    simp only [if_true] at h
    simpa [translate_book, count_paragraphs_in_book] using h

/-- C6: title and author are resolved as the override when it is a non-empty
string, otherwise the document metadata value when present, otherwise the
literal fallbacks `"Unknown Title"` / `"Unknown Author"`; and every prompt
the run sends to the backend is rendered with exactly these once-resolved
values. -/
theorem metadata_resolution (backend : Nat → BackendResp) (encode : String → List Nat)
    (sentTok : String → List String) (book : Book) (language : String)
    (tokenLimit : Nat) (tmpl : Template) (hcb : Bool) (genre : String)
    (bilingual : Bool) (overrideTitle overrideAuthor : String) :
    (∀ e ∈ (translate_book backend encode sentTok book language tokenLimit tmpl hcb
        genre bilingual overrideTitle overrideAuthor).2.2.2,
      isCall e = true →
      ∃ c, e = Event.call (renderTemplate tmpl (mkEnv language c genre
        (if overrideTitle ≠ "" then overrideTitle else book.title.getD "Unknown Title")
        (if overrideAuthor ≠ "" then overrideAuthor else
          book.author.getD "Unknown Author")))) ∧
    (overrideTitle ≠ "" →
      (if overrideTitle ≠ "" then overrideTitle else book.title.getD "Unknown Title") =
        overrideTitle) ∧
    (overrideTitle = "" → ∀ t, book.title = some t →
      (if overrideTitle ≠ "" then overrideTitle else book.title.getD "Unknown Title") = t) ∧
    (overrideTitle = "" → book.title = none →
      (if overrideTitle ≠ "" then overrideTitle else book.title.getD "Unknown Title") =
        "Unknown Title") ∧
    (overrideAuthor ≠ "" →
      (if overrideAuthor ≠ "" then overrideAuthor else
        book.author.getD "Unknown Author") = overrideAuthor) ∧
    (overrideAuthor = "" → ∀ t, book.author = some t →
      (if overrideAuthor ≠ "" then overrideAuthor else
        book.author.getD "Unknown Author") = t) ∧
    (overrideAuthor = "" → book.author = none →
      (if overrideAuthor ≠ "" then overrideAuthor else
        book.author.getD "Unknown Author") = "Unknown Author") := by
  refine ⟨?_, ?_, ?_, ?_, ?_, ?_, ?_⟩
  · intro e he hc
    simp only [translate_book] at he
    exact calls_walkParts backend encode sentTok language tokenLimit tmpl genre bilingual
      _ _ hcb (count_paragraphs_in_book book) book.parts 0 0 e he hc
  · intro h; rw [if_pos h]
  · intro h t ht; rw [if_neg (by simp [h]), ht]; rfl
  · intro h ht; rw [if_neg (by simp [h]), ht]; rfl
  · intro h; rw [if_pos h]
  · intro h t ht; rw [if_neg (by simp [h]), ht]; rfl
  · intro h ht; rw [if_neg (by simp [h]), ht]; rfl

theorem metadata_resolution_witness :
    (if ("Ovr" : String) ≠ "" then "Ovr"
      else ((some "BT" : Option String).getD "Unknown Title")) = "Ovr" ∧
    (if ("" : String) ≠ "" then ""
      else ((none : Option String).getD "Unknown Author")) = "Unknown Author" := by
  have h := metadata_resolution okB lenc oneSent ⟨[["Hello."]], some "BT", none⟩
    "English" 100 [TItem.var "text"] true "General" false "Ovr" ""
  exact ⟨h.2.1 (by decide), h.2.2.2.2.2.2 rfl rfl⟩

/-- C7: in bilingual mode a translated Text Unit's replacement content is the
literal `"ORIGINAL: "` marker and the cleaned original text, then the
separator `"<br/><br/>"`, then the translation wrapped in the italicized
`"<i>TRANSLATION: …</i>"` marker; on the paragraph `"Bonjour"` with backend
translation `"Hello"` this yields
`"ORIGINAL: Bonjour<br/><br/><i>TRANSLATION: Hello</i>"` (see the witness). -/
theorem bilingual_composition (backend : Nat → BackendResp) (encode : String → List Nat)
    (sentTok : String → List String) (language : String) (tokenLimit : Nat)
    (tmpl : Template) (genre finalTitle finalAuthor u : String) (k : Nat)
    (h : clean_text (sstrip u) ≠ "") :
    (processUnit backend encode sentTok language tokenLimit tmpl genre true
      finalTitle finalAuthor u k).1 =
      "ORIGINAL: " ++ clean_text (sstrip u) ++ "<br/><br/>" ++ "<i>TRANSLATION: " ++
        (translate_text backend encode sentTok (clean_text (sstrip u)) language
          tokenLimit tmpl genre finalTitle finalAuthor 3 2 k).1 ++ "</i>" := by
  simp [processUnit, h]

theorem bilingual_composition_witness :
    (processUnit okB lenc oneSent "English" 100 [TItem.var "text"] "General" true
      "T" "A" "Bonjour" 0).1 =
      "ORIGINAL: Bonjour<br/><br/><i>TRANSLATION: Hello</i>" := by
  rw [bilingual_composition okB lenc oneSent "English" 100 [TItem.var "text"] "General"
    "T" "A" "Bonjour" 0 (by decide)]
  decide

/-- C9: a Text Unit whose original text is empty or whitespace-only (cleans to
the empty string) is left untouched by the walker — its content is unchanged,
no backend call and no other event is emitted for it — while the progress
counter still advances by exactly 1 for it and the callback, when supplied,
still fires. -/
theorem empty_unit_untouched (backend : Nat → BackendResp) (encode : String → List Nat)
    (sentTok : String → List String) (language : String) (tokenLimit : Nat)
    (tmpl : Template) (genre : String) (bilingual : Bool)
    (finalTitle finalAuthor : String) (hcb : Bool) (total : Nat) (u : String)
    (cnt k : Nat) (h : clean_text (sstrip u) = "") :
    processUnit backend encode sentTok language tokenLimit tmpl genre bilingual
      finalTitle finalAuthor u k = (u, k, []) ∧
    walkUnits backend encode sentTok language tokenLimit tmpl genre bilingual
      finalTitle finalAuthor hcb total [u] cnt k =
      ([u], cnt + 1, k, if hcb then [Event.progress (cnt + 1) total] else []) := by
  have h1 : processUnit backend encode sentTok language tokenLimit tmpl genre bilingual
      finalTitle finalAuthor u k = (u, k, []) := by
    simp [processUnit, h]
  refine ⟨h1, ?_⟩
  simp only [walkUnits, h1]
  cases hcb <;> simp

theorem empty_unit_untouched_witness :
    processUnit okB lenc oneSent "English" 100 [TItem.var "text"] "General" false
      "T" "A" "   " 0 = ("   ", 0, []) ∧
    walkUnits okB lenc oneSent "English" 100 [TItem.var "text"] "General" false
      "T" "A" true 2 ["   "] 0 0 = (["   "], 1, 0, [Event.progress 1 2]) :=
  empty_unit_untouched okB lenc oneSent "English" 100 [TItem.var "text"] "General"
    false "T" "A" true 2 "   " 0 0 (by decide)

end EpubTranslator
